import Mathlib

/-!
# Verification of the UMI error-correction clustering engine

A shallow embedding of `src/lib/sequence_error.py` (class `ClusterAndReducer`):
barcodes (UMIs) are strings, bundles are association lists from barcode to the
list of read identifiers observed with that barcode, Python dictionaries are
association lists, Python sets are duplicate-free lists whose order mirrors the
construction order, and the fallible `__call__` method is a function into
`Except`.  The `kmeans` helper module of the repository is not part of the
sources being verified, so its two entry points (`hamming`, `find_clusters`)
are modelled from the specification: `hamming` is pinned completely by the
spec, `find_clusters` is kept as an explicit parameter.
-/

namespace SeqErr

abbrev Umi := String

abbrev Read := Nat

/-- A bundle maps each barcode to the ordered reads observed with it. -/
abbrev Bundle := List (Umi × List Read)

/-- Modelled from the spec: the repository's `kmeans` module (not under `src/`)
provides `hamming`; §4.1 pins it as the count of differing positions between
two equal-length sequences (undefined behaviour when the lengths differ). -/
def hammingL : List Char → List Char → Nat
  | x :: xs, y :: ys => (if x = y then 0 else 1) + hammingL xs ys
  | _, _ => 0

/-- Modelled from the spec: hamming distance of two barcode strings. -/
def hamming (a b : Umi) : Nat := hammingL a.data b.data

/-- The type of the repository's `kmeans.find_clusters` (restricted adjacency,
restricted counts, bound `k`), kept as a parameter: the spec leaves its exact
splitting rule open (§4.4, §9). -/
def FindClusters : Type :=
  List (Umi × List Umi) → List (Umi × Nat) → Nat → List (List Umi)

/-- Dictionary lookup on an adjacency list (`adj_list[node]`); every lookup
performed by the source hits an existing key, so the default is never used. -/
def adjLookup (adj : List (Umi × List Umi)) (u : Umi) : List Umi :=
  (adj.lookup u).getD []

/-- `_get_adj_list_directional_`: `umi2` is listed under `umi` iff their
hamming distance equals the threshold and `counts[umi] >= counts[umi2]*2 - 1`
(Python integer arithmetic, hence `Int`). -/
def _get_adj_list_directional_ (umis : List Umi) (counts : Umi → Nat)
    (threshold : Nat) : List (Umi × List Umi) :=
  umis.map (fun umi => (umi, umis.filter (fun umi2 =>
    hamming umi umi2 == threshold &&
      decide ((counts umi2 : Int) * 2 - 1 ≤ (counts umi : Int)))))

/-- `_get_adj_list_kmeans_`: `umi2` is listed under `umi` iff their hamming
distance equals the threshold (no count condition). -/
def _get_adj_list_kmeans_ (umis : List Umi) (counts : Umi → Nat)
    (threshold : Nat) : List (Umi × List Umi) :=
  umis.map (fun umi => (umi, umis.filter (fun umi2 =>
    hamming umi umi2 == threshold)))

/-- One Python `while` iteration of `breadth_first_search`, iterated on fuel.
The queue, searched and found sets are lists; the element popped from the
queue set is its head.  The found list is kept duplicate-free so that its
length matches the cardinality of the Python set. -/
def bfs (adj : Umi → List Umi) : Nat → List Umi → List Umi → List Umi → List Umi
  | 0, _, _, found => found
  | _ + 1, [], _, found => found
  | fuel + 1, node :: rest, searched, found =>
    let neighbors := adj node
    let found' := found ++ neighbors.filter (fun x => decide (x ∉ found))
    let searched' := node :: searched
    let queue' := (rest ++ neighbors).filter (fun x => decide (x ∉ searched'))
    bfs adj fuel queue' searched' found'

/-- `breadth_first_search(node, adj_list)`.  The Python loop terminates because
every iteration moves a fresh key into `searched`; the fuel `|adj_list| + 1`
is an upper bound on the number of iterations, proved sufficient below. -/
def breadth_first_search (node : Umi) (adj_list : List (Umi × List Umi)) :
    List Umi :=
  bfs (adjLookup adj_list) (adj_list.length + 1) [node] [] [node]

/-- Stable insertion step: place `x` before the first element of strictly
smaller count, after all elements of greater-or-equal count. -/
def insertDesc (counts : Umi → Nat) (x : Umi) : List Umi → List Umi
  | [] => [x]
  | y :: ys =>
    if counts y ≤ counts x then x :: y :: ys else y :: insertDesc counts x ys

/-- Python's `sorted(xs, key=lambda x: counts[x], reverse=True)`: a stable
descending sort by count.  Stability pins the output list uniquely, so this
structural insertion sort returns exactly the list the source's sort does. -/
def sortByCountDesc (counts : Umi → Nat) (l : List Umi) : List Umi :=
  l.foldr (insertDesc counts) []

/-- One iteration of the `for node in sorted(...)` loop of
`get_connected_components`: an unseen node seeds a breadth-first search whose
result is appended to the components and merged into the found set. -/
def gccStep (graph : List (Umi × List Umi)) (st : List Umi × List (List Umi))
    (node : Umi) : List Umi × List (List Umi) :=
  if node ∈ st.1 then st
  else (st.1 ++ breadth_first_search node graph,
        st.2 ++ [breadth_first_search node graph])

/-- `get_connected_components(umis, graph, counts)`: seed breadth-first
searches over the graph's keys in stably-sorted descending count order,
skipping already-found keys; the found set accumulates every member of every
component appended so far. -/
def get_connected_components (umis : List Umi) (graph : List (Umi × List Umi))
    (counts : Umi → Nat) : List (List Umi) :=
  ((sortByCountDesc counts (graph.map Prod.fst)).foldl (gccStep graph)
    (([], []) : List Umi × List (List Umi))).2

/-- `get_best(cluster, counts)`: the head of the stable descending sort by
count (a singleton returns its only member; the source raises on an empty
cluster, which never occurs, so the default `""` is never returned). -/
def get_best (cluster : List Umi) (counts : Umi → Nat) : Umi :=
  if cluster.length = 1 then cluster.headD ""
  else (sortByCountDesc counts cluster).headD ""

/-- Python's `max` on a non-empty list of strings: lexicographic by code
point.  The `""` default is below every string, so on the non-empty lists the
source applies it to this is the usual maximum. -/
def strLtB : List Char → List Char → Bool
  | [], [] => false
  | [], _ :: _ => true
  | _ :: _, [] => false
  | x :: xs, y :: ys => if x < y then true else if y < x then false else strLtB xs ys

/-- Lexicographic string comparison by code points, as Python compares str. -/
def pyLt (a b : Umi) : Bool := strLtB a.data b.data

/-- `max(cluster_reps)` for a list of strings. -/
def pyMaxStr (l : List Umi) : Umi := l.foldl (fun a b => if pyLt a b then b else a) ""

/-- Python set equality (`==` between two sets): extensional equality. -/
def setEqB (a b : List Umi) : Bool :=
  a.all (fun x => b.contains x) && b.all (fun x => a.contains x)

/-- `components[components.index(parent_clusters[i])].remove(umi)`: locate the
first component extensionally equal to `target` and delete `umi` from it. -/
def removeUmiFirstEq (comps : List (List Umi)) (target : List Umi) (umi : Umi) :
    List (List Umi) :=
  match comps.findIdx? (fun c => setEqB c target) with
  | some j => comps.set j ((comps.getD j []).filter (fun x => x != umi))
  | none => comps

/-- The body of the `for umi in umis` loop of
`_post_process_components_directional_`.  `P` records the positions of the
components currently claiming `umi` (the live objects behind Python's
`parent_clusters`); representatives are computed before any removal; the
winning index is the first holding `max(cluster_reps)` (lexicographic string
max); every other claimant loses `umi`, located by first extensional match
exactly as Python's `list.index` does. -/
def processUmiDirectional (counts : Umi → Nat) (comps : List (List Umi))
    (umi : Umi) : List (List Umi) :=
  let P := (List.range comps.length).filter (fun j => (comps.getD j []).contains umi)
  if P.length ≤ 1 then comps
  else
    let reps := P.map (fun j => get_best (comps.getD j []) counts)
    let m := pyMaxStr reps
    let irep := reps.findIdx (fun r => r == m)
    (List.range P.length).foldl
      (fun cs i =>
        if i = irep then cs
        else removeUmiFirstEq cs (cs.getD (P.getD i 0) []) umi)
      comps

/-- `_post_process_components_directional_(umis, components, adj_list, counts)`. -/
def _post_process_components_directional_ (umis : List Umi)
    (components : List (List Umi)) (adj_list : List (Umi × List Umi))
    (counts : Umi → Nat) : List (List Umi) :=
  umis.foldl (processUmiDirectional counts) components

/-- One iteration of the `for cluster in components` loop of
`_post_process_components_kmeans_`, with `kmeans.find_clusters` as the
parameter `fc`: a singleton passes through; otherwise counts and adjacency
are restricted to the cluster and the secondary pass is invoked with `k = 1`
— and the ORIGINAL cluster is appended once per returned sub-group (the
source's loop variable `new_cluster` is unused). -/
def kmeansStep (fc : FindClusters) (adj_list : List (Umi × List Umi))
    (counts : Umi → Nat) (acc : List (List Umi)) (cluster : List Umi) :
    List (List Umi) :=
  if cluster.length = 1 then acc ++ [cluster]
  else
    let counts_restricted := cluster.map (fun u => (u, counts u))
    let adj_restricted := cluster.map (fun u => (u, adjLookup adj_list u))
    let new_clusters := fc adj_restricted counts_restricted 1
    acc ++ new_clusters.map (fun _ => cluster)

/-- `_post_process_components_kmeans_(umis, components, adj_list, counts)`. -/
def _post_process_components_kmeans_ (fc : FindClusters) (umis : List Umi)
    (components : List (List Umi)) (adj_list : List (Umi × List Umi))
    (counts : Umi → Nat) : List (List Umi) :=
  components.foldl (kmeansStep fc adj_list counts) []

/-- One iteration of the `for cluster in clusters` loop of `reduce_clusters`:
clusters with more than one member emit one `(read, parent_umi)` pair per
read filed under each non-parent member. -/
def reduceStep (bundle : Bundle) (counts : Umi → Nat)
    (reads : List (Read × Umi)) (cluster : List Umi) : List (Read × Umi) :=
  if 1 < cluster.length then
    let parent_umi := get_best cluster counts
    reads ++ (cluster.filter (fun u => u != parent_umi)).flatMap
      (fun u => ((bundle.lookup u).getD []).map (fun r => (r, parent_umi)))
  else reads

/-- `reduce_clusters(bundle, clusters, counts)`. -/
def reduce_clusters (bundle : Bundle) (clusters : List (List Umi))
    (counts : Umi → Nat) : List (Read × Umi) :=
  clusters.foldl (reduceStep bundle counts) []

/-- Python's `max` over a list of ints (raises on the empty list, hence
`Option`). -/
def maxNat? : List Nat → Option Nat
  | [] => none
  | x :: xs =>
    some (match maxNat? xs with | none => x | some m => if x ≤ m then m else x)

/-- Python's `min` over a list of ints (raises on the empty list, hence
`Option`). -/
def minNat? : List Nat → Option Nat
  | [] => none
  | x :: xs =>
    some (match minNat? xs with | none => x | some m => if x ≤ m then x else m)

/-- The keys of the bundle (`bundle.keys()`). -/
def bundleUmis (bundle : Bundle) : List Umi := bundle.map Prod.fst

/-- `counts = {umi: len(bundle[umi]) for umi in umis}`, as a count function. -/
def bundleCounts (bundle : Bundle) : Umi → Nat :=
  fun u => ((bundle.lookup u).getD []).length

/-- The ways `__call__` can raise: `ValueError` from `max([])` on an empty
bundle, `AssertionError` carrying the observed min and max barcode lengths,
and `AttributeError` when `__init__` bound no policy methods. -/
inductive CallError where
  | emptyBundle : CallError
  | lengthMismatch : Nat → Nat → CallError
  | missingAttribute : CallError
deriving DecidableEq, Repr

/-- The `ClusterAndReducer` functor: `__init__` binds `get_adj_list` and
`post_process_components` only for the two recognised cluster methods, so the
fields are optional. -/
structure ClusterAndReducer where
  get_adj_list :
    Option (List Umi → (Umi → Nat) → Nat → List (Umi × List Umi))
  post_process_components :
    Option (List Umi → List (List Umi) → List (Umi × List Umi) → (Umi → Nat) →
      List (List Umi))

/-- `__init__(cluster_method)`: bind the directional or kmeans method pair;
any other string leaves both attributes unbound. -/
def initCR (cluster_method : String) (fc : FindClusters) : ClusterAndReducer :=
  if cluster_method = "directional" then
    { get_adj_list := some _get_adj_list_directional_
      post_process_components := some _post_process_components_directional_ }
  else if cluster_method = "kmeans" then
    { get_adj_list := some _get_adj_list_kmeans_
      post_process_components := some (_post_process_components_kmeans_ fc) }
  else
    { get_adj_list := none, post_process_components := none }

/-- `__call__(bundle, threshold)`: take the barcode lengths; `max`/`min` of an
empty list raise; a differing min and max fail the uniform-length assertion,
which reports both; then counts, adjacency, components, post-processing and
reduction run in sequence (a missing policy attribute raises when first
accessed, before any reassignment is produced). -/
def callCR (cr : ClusterAndReducer) (bundle : Bundle) (threshold : Nat) :
    Except CallError (List (Read × Umi)) :=
  let umis := bundleUmis bundle
  let lens := umis.map String.length
  match maxNat? lens, minNat? lens with
  | some M, some m =>
    if M = m then
      match cr.get_adj_list, cr.post_process_components with
      | some ga, some pp =>
        let counts := bundleCounts bundle
        let adj_list := ga umis counts threshold
        let clusters := get_connected_components umis adj_list counts
        let clusters2 := pp umis clusters adj_list counts
        .ok (reduce_clusters bundle clusters2 counts)
      | _, _ => .error .missingAttribute
    else .error (.lengthMismatch m M)
  | _, _ => .error .emptyBundle

/-- Modelled from the spec: one admissible instance of the underspecified
secondary refinement `kmeans.find_clusters` (§4.4: "splits it into
abundance-consistent sub-groups when clearly warranted"), here an instance
that does split, returning one sub-group per member. -/
def fcSplitAll : FindClusters := fun _ cnts _ => cnts.map (fun p => [p.1])

/-- Modelled from the spec: the no-op end of the `find_clusters` contract
(§4.4: "otherwise leaves it unchanged"): the component is returned whole. -/
def fcNoop : FindClusters := fun _ cnts _ => [cnts.map Prod.fst]

/-! ## Concrete inputs used by counterexamples and evaluations -/

/-- Bundle AA:3 reads, CC:2 reads, AC:1 read; under the directional rule at
threshold 1 the barcode AC is reachable from both AA and CC. -/
def bundleMulti : Bundle := [("AA", [0, 1, 2]), ("CC", [3, 4]), ("AC", [5])]

/-- The spec's worked directional example: AAAA:10 reads, AAAT:1, TTTT:8. -/
def bundleSpecExample : Bundle :=
  [("AAAA", [0, 1, 2, 3, 4, 5, 6, 7, 8, 9]), ("AAAT", [10]),
   ("TTTT", [11, 12, 13, 14, 15, 16, 17, 18])]

/-- Two barcodes one edit apart, AA with two reads and AB with one. -/
def bundlePair : Bundle := [("AA", [0, 1]), ("AB", [2])]

/-- A bundle mixing two barcode lengths (1 and 2). -/
def bundleMixed : Bundle := [("A", [0]), ("BB", [1])]

end SeqErr

namespace SeqErr

/-! ## Helper lemmas -/

theorem hammingL_self (l : List Char) : hammingL l l = 0 := by
  induction l with
  | nil => rfl
  | cons x xs ih => simp [hammingL, ih]

theorem hamming_self (u : Umi) : hamming u u = 0 := hammingL_self u.data

theorem hammingL_eq_zero (l1 l2 : List Char) (h : l1.length = l2.length) :
    hammingL l1 l2 = 0 ↔ l1 = l2 := by
  induction l1 generalizing l2 with
  | nil => cases l2 with
    | nil => simp [hammingL]
    | cons y ys => simp at h
  | cons x xs ih =>
    cases l2 with
    | nil => simp at h
    | cons y ys =>
      simp only [List.length_cons, Nat.add_right_cancel_iff] at h
      by_cases hxy : x = y
      · subst hxy; simp [hammingL, ih ys h]
      · simp [hammingL, hxy]

theorem hamming_eq_zero (a b : Umi) (h : a.length = b.length) :
    hamming a b = 0 ↔ a = b := by
  rw [hamming, hammingL_eq_zero a.data b.data h]
  constructor
  · intro hd
    exact congrArg String.mk hd
  · intro he; rw [he]

/-- Looking a key up in a dictionary comprehension `{x: f(x) for x in l}`
yields `f` of the key whenever the key occurs in `l`. -/
theorem lookup_map_self {α : Type} (f : Umi → α) (l : List Umi) (u : Umi) :
    (l.map fun x => (x, f x)).lookup u = if u ∈ l then some (f u) else none := by
  induction l with
  | nil => rfl
  | cons x xs ih =>
    by_cases hux : u = x
    · subst hux; simp [List.lookup]
    · have hbeq : (u == x) = false := by simpa using hux
      simp [List.lookup, hbeq, ih, hux]

/-- The adjacency list the directional builder files under a bundle barcode. -/
theorem adjLookup_directional (umis : List Umi) (counts : Umi → Nat)
    (threshold : Nat) (B : Umi) (hB : B ∈ umis) :
    adjLookup (_get_adj_list_directional_ umis counts threshold) B =
      umis.filter (fun umi2 =>
        hamming B umi2 == threshold &&
          decide ((counts umi2 : Int) * 2 - 1 ≤ (counts B : Int))) := by
  rw [adjLookup, _get_adj_list_directional_, lookup_map_self, if_pos hB,
    Option.getD_some]

/-- The adjacency list the count-agnostic builder files under a barcode. -/
theorem adjLookup_kmeans (umis : List Umi) (counts : Umi → Nat)
    (threshold : Nat) (B : Umi) (hB : B ∈ umis) :
    adjLookup (_get_adj_list_kmeans_ umis counts threshold) B =
      umis.filter (fun umi2 => hamming B umi2 == threshold) := by
  rw [adjLookup, _get_adj_list_kmeans_, lookup_map_self, if_pos hB,
    Option.getD_some]

theorem sortByCountDesc_cons (counts : Umi → Nat) (x : Umi) (xs : List Umi) :
    sortByCountDesc counts (x :: xs) =
      insertDesc counts x (sortByCountDesc counts xs) := rfl

theorem insertDesc_ne_nil (counts : Umi → Nat) (x : Umi) (l : List Umi) :
    insertDesc counts x l ≠ [] := by
  cases l with
  | nil => simp [insertDesc]
  | cons y ys =>
    rw [insertDesc]
    by_cases h : counts y ≤ counts x <;> simp [h]

theorem sortByCountDesc_ne_nil (counts : Umi → Nat) (x : Umi) (xs : List Umi) :
    sortByCountDesc counts (x :: xs) ≠ [] := by
  rw [sortByCountDesc_cons]; exact insertDesc_ne_nil counts x _

/-- The head of the stable descending sort of a non-empty list is a member,
has maximal count, and is the FIRST member of the original list attaining
that count (this is exactly Python's stable `sorted(...)[0]`). -/
theorem sortHead_spec (counts : Umi → Nat) :
    ∀ l : List Umi, l ≠ [] →
      (sortByCountDesc counts l).headD "" ∈ l ∧
      (∀ x ∈ l, counts x ≤ counts ((sortByCountDesc counts l).headD "")) ∧
      l.find? (fun x =>
          decide (counts ((sortByCountDesc counts l).headD "") ≤ counts x)) =
        some ((sortByCountDesc counts l).headD "") := by
  intro l
  induction l with
  | nil => intro h; exact absurd rfl h
  | cons x xs ih =>
    intro _
    by_cases hxs : xs = []
    · subst hxs
      refine ⟨by simp [sortByCountDesc, insertDesc], ?_, ?_⟩
      · intro y hy
        simp only [List.mem_singleton] at hy
        simp [hy, sortByCountDesc, insertDesc]
      · simp [sortByCountDesc, insertDesc, List.find?]
    · obtain ⟨hmem, hdom, hfind⟩ := ih hxs
      obtain ⟨c, cs, hcs⟩ :=
        List.exists_cons_of_ne_nil
          (show sortByCountDesc counts xs ≠ [] by
            obtain ⟨y, ys, hys⟩ := List.exists_cons_of_ne_nil hxs
            rw [hys]; exact sortByCountDesc_ne_nil counts y ys)
      rw [hcs] at hmem hdom hfind
      simp only [List.headD_cons] at hmem hdom hfind
      by_cases hcx : counts c ≤ counts x
      · have hsort : sortByCountDesc counts (x :: xs) = x :: c :: cs := by
          rw [sortByCountDesc_cons, hcs, insertDesc, if_pos hcx]
        rw [hsort]
        simp only [List.headD_cons]
        refine ⟨List.mem_cons_self x xs, ?_, ?_⟩
        · intro y hy
          rcases List.mem_cons.mp hy with hy | hy
          · exact hy ▸ Nat.le_refl _
          · exact Nat.le_trans (hdom y hy) hcx
        · rw [List.find?_cons_of_pos _ (by simp)]
      · have hsort : sortByCountDesc counts (x :: xs) =
            c :: insertDesc counts x cs := by
          rw [sortByCountDesc_cons, hcs, insertDesc, if_neg hcx]
        rw [hsort]
        simp only [List.headD_cons]
        have hxc : counts x < counts c := Nat.lt_of_not_le hcx
        refine ⟨List.mem_cons_of_mem x hmem, ?_, ?_⟩
        · intro y hy
          rcases List.mem_cons.mp hy with hy | hy
          · exact hy ▸ Nat.le_of_lt hxc
          · exact hdom y hy
        · rw [List.find?_cons_of_neg _ (by simp [Nat.not_le.mpr hxc]),
            hfind]

/-- `get_best` always returns the head of the stable descending sort (the
singleton short-circuit in the source agrees with the sort). -/
theorem get_best_eq_sortHead (cluster : List Umi) (counts : Umi → Nat) :
    get_best cluster counts = (sortByCountDesc counts cluster).headD "" := by
  by_cases h1 : cluster.length = 1
  · obtain ⟨a, ha⟩ := List.length_eq_one.mp h1
    subst ha
    simp [get_best, sortByCountDesc, insertDesc]
  · rw [get_best, if_neg h1]

theorem maxNat?_spec :
    ∀ (l : List Nat) (M : Nat), maxNat? l = some M →
      M ∈ l ∧ ∀ x ∈ l, x ≤ M := by
  intro l
  induction l with
  | nil => intro M h; exact absurd h (by rw [maxNat?]; exact Option.noConfusion)
  | cons x xs ih =>
    intro M h
    rw [maxNat?] at h
    cases hxs : maxNat? xs with
    | none =>
      rw [hxs] at h
      have hx : x = M := by injection h
      cases xs with
      | nil =>
        exact ⟨hx ▸ List.mem_singleton_self x, by
          intro y hy
          simp only [List.mem_singleton] at hy
          omega⟩
      | cons y ys => exact absurd hxs (by rw [maxNat?]; exact Option.noConfusion)
    | some m =>
      rw [hxs] at h
      have hx : (if x ≤ m then m else x) = M := by injection h
      obtain ⟨hmem, hle⟩ := ih m hxs
      by_cases hc : x ≤ m
      · rw [if_pos hc] at hx
        refine ⟨hx ▸ List.mem_cons_of_mem x hmem, ?_⟩
        intro y hy
        rcases List.mem_cons.mp hy with hy | hy
        · subst hy; omega
        · have := hle y hy; omega
      · rw [if_neg hc] at hx
        refine ⟨hx ▸ List.mem_cons_self x xs, ?_⟩
        intro y hy
        rcases List.mem_cons.mp hy with hy | hy
        · subst hy; omega
        · have := hle y hy; omega

theorem minNat?_spec :
    ∀ (l : List Nat) (m : Nat), minNat? l = some m →
      m ∈ l ∧ ∀ x ∈ l, m ≤ x := by
  intro l
  induction l with
  | nil => intro m h; exact absurd h (by rw [minNat?]; exact Option.noConfusion)
  | cons x xs ih =>
    intro m h
    rw [minNat?] at h
    cases hxs : minNat? xs with
    | none =>
      rw [hxs] at h
      have hx : x = m := by injection h
      cases xs with
      | nil =>
        exact ⟨hx ▸ List.mem_singleton_self x, by
          intro y hy
          simp only [List.mem_singleton] at hy
          omega⟩
      | cons y ys => exact absurd hxs (by rw [minNat?]; exact Option.noConfusion)
    | some m' =>
      rw [hxs] at h
      have hx : (if x ≤ m' then x else m') = m := by injection h
      obtain ⟨hmem, hle⟩ := ih m' hxs
      by_cases hc : x ≤ m'
      · rw [if_pos hc] at hx
        refine ⟨hx ▸ List.mem_cons_self x xs, ?_⟩
        intro y hy
        rcases List.mem_cons.mp hy with hy | hy
        · subst hy; omega
        · have := hle y hy; omega
      · rw [if_neg hc] at hx
        refine ⟨hx ▸ List.mem_cons_of_mem x hmem, ?_⟩
        intro y hy
        rcases List.mem_cons.mp hy with hy | hy
        · subst hy; omega
        · have := hle y hy; omega

/-- On a non-empty bundle of uniform barcode length, the observed maximum and
minimum lengths both exist and coincide. -/
theorem lens_uniform (bundle : Bundle) (hne : bundle ≠ [])
    (huni : ∀ u ∈ bundleUmis bundle, ∀ v ∈ bundleUmis bundle,
      u.length = v.length) :
    ∃ L, maxNat? ((bundleUmis bundle).map String.length) = some L ∧
      minNat? ((bundleUmis bundle).map String.length) = some L := by
  obtain ⟨p, ps, hb⟩ := List.exists_cons_of_ne_nil hne
  subst hb
  obtain ⟨M, hM⟩ : ∃ M,
      maxNat? ((bundleUmis (p :: ps)).map String.length) = some M :=
    ⟨_, by rw [bundleUmis, List.map_cons, List.map_cons, maxNat?]⟩
  obtain ⟨m, hm⟩ : ∃ m,
      minNat? ((bundleUmis (p :: ps)).map String.length) = some m :=
    ⟨_, by rw [bundleUmis, List.map_cons, List.map_cons, minNat?]⟩
  obtain ⟨hMmem, -⟩ := maxNat?_spec _ M hM
  obtain ⟨hmmem, -⟩ := minNat?_spec _ m hm
  obtain ⟨u, hu, hul⟩ := List.mem_map.mp hMmem
  obtain ⟨v, hv, hvl⟩ := List.mem_map.mp hmmem
  have : M = m := by rw [← hul, ← hvl]; exact huni u hu v hv
  exact ⟨M, hM, this ▸ hm⟩

theorem lookup_mem {β : Type} :
    ∀ (l : List (Umi × β)) (k : Umi) (v : β),
      l.lookup k = some v → (k, v) ∈ l := by
  intro l
  induction l with
  | nil => intro k v h; exact Option.noConfusion h
  | cons p ps ih =>
    intro k v h
    obtain ⟨k', v'⟩ := p
    cases hbeq : (k == k') with
    | true =>
      rw [List.lookup, hbeq] at h
      have hk : k = k' := by simpa using hbeq
      have hv : v' = v := by injection h
      rw [← hk, hv]
      exact List.mem_cons_self _ _
    | false =>
      rw [List.lookup, hbeq] at h
      exact List.mem_cons_of_mem _ (ih k v h)

/-- Every adjacency value the builders store is drawn from the graph's keys,
so the lookup of any barcode stays inside the key set. -/
theorem adjLookup_subset_keys (graph : List (Umi × List Umi))
    (hval : ∀ p ∈ graph, ∀ v ∈ p.2, v ∈ graph.map Prod.fst) (u : Umi) :
    adjLookup graph u ⊆ graph.map Prod.fst := by
  rw [adjLookup]
  cases hl : graph.lookup u with
  | none => simp
  | some l =>
    intro a ha
    rw [Option.getD_some] at ha
    exact hval (u, l) (lookup_mem graph u l hl) a ha

/-- The found set only grows along a breadth-first search. -/
theorem bfs_found_subset (adj : Umi → List Umi) :
    ∀ (fuel : Nat) (q s f : List Umi), f ⊆ bfs adj fuel q s f := by
  intro fuel
  induction fuel with
  | zero =>
    intro q s f
    rw [bfs]
    exact fun a ha => ha
  | succ n ih =>
    intro q s f
    cases q with
    | nil =>
      rw [bfs]
      exact fun a ha => ha
    | cons node rest =>
      simp only [bfs]
      intro a ha
      exact ih _ _ _ (List.mem_append_left _ ha)

/-- The invariant-based termination-and-closure lemma for the source's
breadth-first search: when the queue and searched set live inside the finite
universe `U`, every searched node has its neighbours recorded in found, and
found is covered by searched and queue, then with fuel at least
`|U| + 1 − |searched|` the loop drains its queue and the returned found set
is closed under one adjacency step. -/
theorem bfs_closed (adj : Umi → List Umi) (U : List Umi)
    (hadj : ∀ u, adj u ⊆ U) :
    ∀ (fuel : Nat) (q s f : List Umi),
      q ⊆ U → s.Nodup → s ⊆ U →
      (∀ x ∈ q, x ∉ s) →
      (∀ x ∈ s, adj x ⊆ f) →
      f ⊆ s ++ q →
      U.length + 1 ≤ fuel + s.length →
      ∀ x ∈ bfs adj fuel q s f, adj x ⊆ bfs adj fuel q s f := by
  intro fuel
  induction fuel with
  | zero =>
    intro q s f hqU hnd hsU hqs hcl hf hfuel
    have hlen := (List.subperm_of_subset hnd hsU).length_le
    exact absurd hfuel (by omega)
  | succ n ih =>
    intro q s f hqU hnd hsU hqs hcl hf hfuel
    cases q with
    | nil =>
      rw [bfs]
      intro x hx
      have hxs : x ∈ s := by
        have h2 := hf hx
        rwa [List.append_nil] at h2
      exact hcl x hxs
    | cons node rest =>
      simp only [bfs]
      apply ih
      · intro a ha
        rw [List.mem_filter] at ha
        rcases List.mem_append.mp ha.1 with h | h
        · exact hqU (List.mem_cons_of_mem _ h)
        · exact hadj node h
      · exact List.nodup_cons.mpr ⟨hqs node (List.mem_cons_self _ _), hnd⟩
      · intro a ha
        rcases List.mem_cons.mp ha with h | h
        · exact h ▸ hqU (List.mem_cons_self _ _)
        · exact hsU h
      · intro x hx
        rw [List.mem_filter] at hx
        simpa using hx.2
      · intro x hx
        rcases List.mem_cons.mp hx with h | h
        · subst h
          intro a ha
          by_cases haf : a ∈ f
          · exact List.mem_append_left _ haf
          · exact List.mem_append_right _
              (List.mem_filter.mpr ⟨ha, by simpa using haf⟩)
        · exact fun a ha => List.mem_append_left _ (hcl x h ha)
      · intro a ha
        rcases List.mem_append.mp ha with haf | haf
        · rcases List.mem_append.mp (hf haf) with h | h
          · exact List.mem_append_left _ (List.mem_cons_of_mem _ h)
          · rcases List.mem_cons.mp h with h | h
            · exact List.mem_append_left _ (h ▸ List.mem_cons_self _ _)
            · by_cases hns : a ∈ node :: s
              · exact List.mem_append_left _ hns
              · exact List.mem_append_right _
                  (List.mem_filter.mpr
                    ⟨List.mem_append_left _ h, by simpa using hns⟩)
        · rw [List.mem_filter] at haf
          by_cases hns : a ∈ node :: s
          · exact List.mem_append_left _ hns
          · exact List.mem_append_right _
              (List.mem_filter.mpr
                ⟨List.mem_append_right _ haf.1, by simpa using hns⟩)
      · simp only [List.length_cons]
        omega

/-- `breadth_first_search` starting from a graph key returns a found set that
contains the seed and is closed under adjacency. -/
theorem breadth_first_search_spec (graph : List (Umi × List Umi))
    (hval : ∀ p ∈ graph, ∀ v ∈ p.2, v ∈ graph.map Prod.fst)
    (node : Umi) (hnode : node ∈ graph.map Prod.fst) :
    node ∈ breadth_first_search node graph ∧
    ∀ x ∈ breadth_first_search node graph,
      adjLookup graph x ⊆ breadth_first_search node graph := by
  constructor
  · exact bfs_found_subset (adjLookup graph) _ _ _ _
      (List.mem_singleton_self node)
  · apply bfs_closed (adjLookup graph) (graph.map Prod.fst)
      (adjLookup_subset_keys graph hval)
    · intro a ha
      rw [List.mem_singleton] at ha
      exact ha ▸ hnode
    · exact List.nodup_nil
    · exact List.nil_subset _
    · intro x hx
      exact List.not_mem_nil x
    · intro x hx
      exact absurd hx (List.not_mem_nil x)
    · intro a ha
      rw [List.mem_singleton] at ha
      subst ha
      simp
    · rw [List.length_map]
      omega

theorem mem_insertDesc (counts : Umi → Nat) (x y : Umi) :
    ∀ l, y ∈ insertDesc counts x l ↔ y = x ∨ y ∈ l := by
  intro l
  induction l with
  | nil => simp [insertDesc]
  | cons z zs ih =>
    rw [insertDesc]
    by_cases h : counts z ≤ counts x
    · rw [if_pos h]
      simp [List.mem_cons]
    · rw [if_neg h]
      simp only [List.mem_cons, ih]
      tauto

theorem mem_sortByCountDesc (counts : Umi → Nat) (y : Umi) :
    ∀ l, y ∈ sortByCountDesc counts l ↔ y ∈ l := by
  intro l
  induction l with
  | nil => simp [sortByCountDesc]
  | cons x xs ih =>
    rw [sortByCountDesc_cons, mem_insertDesc]
    simp only [List.mem_cons, ih]

/-- Invariant propagation along the component-finding fold: coverage of every
processed or already-found barcode, and adjacency-closure of every component
collected so far. -/
theorem gcc_fold_spec (graph : List (Umi × List Umi))
    (hval : ∀ p ∈ graph, ∀ v ∈ p.2, v ∈ graph.map Prod.fst) :
    ∀ (l : List Umi) (st : List Umi × List (List Umi)),
      l ⊆ graph.map Prod.fst →
      (∀ x ∈ st.1, ∃ c ∈ st.2, x ∈ c) →
      (∀ c ∈ st.2, ∀ x ∈ c, adjLookup graph x ⊆ c) →
      (∀ u, (u ∈ l ∨ u ∈ st.1) →
        ∃ c ∈ (l.foldl (gccStep graph) st).2, u ∈ c) ∧
      (∀ c ∈ (l.foldl (gccStep graph) st).2, ∀ x ∈ c,
        adjLookup graph x ⊆ c) := by
  intro l
  induction l with
  | nil =>
    intro st hl h1 h2
    rw [List.foldl_nil]
    refine ⟨fun u hu => h1 u ?_, h2⟩
    rcases hu with hu | hu
    · exact absurd hu (List.not_mem_nil u)
    · exact hu
  | cons node rest ih =>
    intro st hl h1 h2
    rw [List.foldl_cons]
    have hnode : node ∈ graph.map Prod.fst := hl (List.mem_cons_self _ _)
    have hrest : rest ⊆ graph.map Prod.fst :=
      fun a ha => hl (List.mem_cons_of_mem _ ha)
    by_cases hn : node ∈ st.1
    · have hstep : gccStep graph st node = st := by rw [gccStep, if_pos hn]
      rw [hstep]
      obtain ⟨hcov, hcl⟩ := ih st hrest h1 h2
      refine ⟨fun u hu => hcov u ?_, hcl⟩
      rcases hu with hu | hu
      · rcases List.mem_cons.mp hu with hu | hu
        · exact Or.inr (hu ▸ hn)
        · exact Or.inl hu
      · exact Or.inr hu
    · have hstep : gccStep graph st node =
          (st.1 ++ breadth_first_search node graph,
           st.2 ++ [breadth_first_search node graph]) := by
        rw [gccStep, if_neg hn]
      rw [hstep]
      obtain ⟨hseed, hclosed⟩ := breadth_first_search_spec graph hval node hnode
      have h1' : ∀ x ∈ st.1 ++ breadth_first_search node graph,
          ∃ c ∈ st.2 ++ [breadth_first_search node graph], x ∈ c := by
        intro x hx
        rcases List.mem_append.mp hx with hx | hx
        · obtain ⟨c, hc, hxc⟩ := h1 x hx
          exact ⟨c, List.mem_append_left _ hc, hxc⟩
        · exact ⟨_, List.mem_append_right _ (List.mem_singleton_self _), hx⟩
      have h2' : ∀ c ∈ st.2 ++ [breadth_first_search node graph],
          ∀ x ∈ c, adjLookup graph x ⊆ c := by
        intro c hc
        rcases List.mem_append.mp hc with hc | hc
        · exact h2 c hc
        · rw [List.mem_singleton] at hc
          subst hc
          exact hclosed
      obtain ⟨hcov, hcl⟩ := ih (st.1 ++ breadth_first_search node graph,
        st.2 ++ [breadth_first_search node graph]) hrest h1' h2'
      refine ⟨fun u hu => hcov u ?_, hcl⟩
      rcases hu with hu | hu
      · rcases List.mem_cons.mp hu with hu | hu
        · exact Or.inr (by rw [hu]; exact List.mem_append_right _ hseed)
        · exact Or.inl hu
      · exact Or.inr (List.mem_append_left _ hu)

theorem bfs_nil_queue (adj : Umi → List Umi) :
    ∀ (fuel : Nat) (s f : List Umi), bfs adj fuel [] s f = f := by
  intro fuel
  cases fuel with
  | zero => intro s f; rw [bfs]
  | succ n => intro s f; rw [bfs]

/-- A node whose adjacency list contains at most itself explores nothing: the
breadth-first search returns the singleton found set. -/
theorem bfs_singleton (adj : Umi → List Umi) (node : Umi)
    (h : adj node ⊆ [node]) (fuel : Nat) :
    bfs adj (fuel + 1) [node] [] [node] = [node] := by
  have hfil : (adj node).filter (fun x => decide (x ∉ [node])) = [] := by
    apply List.filter_eq_nil_iff.mpr
    intro a ha
    have ha2 : a ∈ [node] := h ha
    rw [List.mem_singleton] at ha2
    simp [ha2]
  simp only [bfs, List.nil_append]
  rw [hfil, List.append_nil, bfs_nil_queue]

/-- At threshold 0 on a uniform-length bundle, a barcode's directional
adjacency list contains at most the barcode itself. -/
theorem adjLookup_directional_zero (bundle : Bundle)
    (huni : ∀ u ∈ bundleUmis bundle, ∀ v ∈ bundleUmis bundle,
      u.length = v.length) (u : Umi) :
    adjLookup (_get_adj_list_directional_ (bundleUmis bundle)
      (bundleCounts bundle) 0) u ⊆ [u] := by
  by_cases hu : u ∈ bundleUmis bundle
  · rw [adjLookup_directional _ _ _ u hu]
    intro a ha
    rw [List.mem_filter] at ha
    obtain ⟨haU, hpred⟩ := ha
    simp only [Bool.and_eq_true, beq_iff_eq, decide_eq_true_eq] at hpred
    have hua : u = a := (hamming_eq_zero u a (huni u hu a haU)).mp hpred.1
    exact List.mem_singleton.mpr hua.symm
  · rw [adjLookup, _get_adj_list_directional_, lookup_map_self, if_neg hu]
    intro a ha
    exact absurd ha (List.not_mem_nil a)

/-- At threshold 0 on a uniform-length bundle, a barcode's count-agnostic
adjacency list contains at most the barcode itself. -/
theorem adjLookup_kmeans_zero (bundle : Bundle)
    (huni : ∀ u ∈ bundleUmis bundle, ∀ v ∈ bundleUmis bundle,
      u.length = v.length) (u : Umi) :
    adjLookup (_get_adj_list_kmeans_ (bundleUmis bundle)
      (bundleCounts bundle) 0) u ⊆ [u] := by
  by_cases hu : u ∈ bundleUmis bundle
  · rw [adjLookup_kmeans _ _ _ u hu]
    intro a ha
    rw [List.mem_filter] at ha
    obtain ⟨haU, hpred⟩ := ha
    rw [beq_iff_eq] at hpred
    have hua : u = a := (hamming_eq_zero u a (huni u hu a haU)).mp hpred
    exact List.mem_singleton.mpr hua.symm
  · rw [adjLookup, _get_adj_list_kmeans_, lookup_map_self, if_neg hu]
    intro a ha
    exact absurd ha (List.not_mem_nil a)

/-- When every adjacency list contains at most its own key, component
discovery returns a list of singleton components over a duplicate-free list
of barcodes. -/
theorem gcc_selfloop (graph : List (Umi × List Umi)) (counts : Umi → Nat)
    (umis : List Umi) (hself : ∀ u, adjLookup graph u ⊆ [u]) :
    ∃ ds : List Umi, ds.Nodup ∧
      get_connected_components umis graph counts =
        ds.map (fun u => [u]) := by
  suffices h : ∀ (l : List Umi) (st : List Umi × List (List Umi)),
      st.1.Nodup → st.2 = st.1.map (fun u => [u]) →
      ∃ ds : List Umi, ds.Nodup ∧
        (l.foldl (gccStep graph) st).2 = ds.map (fun u => [u]) by
    exact h _ ([], []) List.nodup_nil rfl
  intro l
  induction l with
  | nil =>
    intro st h1 h2
    exact ⟨st.1, h1, by rw [List.foldl_nil, h2]⟩
  | cons node rest ih =>
    intro st h1 h2
    rw [List.foldl_cons]
    by_cases hn : node ∈ st.1
    · rw [show gccStep graph st node = st by rw [gccStep, if_pos hn]]
      exact ih st h1 h2
    · have hbfs : breadth_first_search node graph = [node] := by
        rw [breadth_first_search]
        exact bfs_singleton (adjLookup graph) node (hself node) graph.length
      rw [show gccStep graph st node = (st.1 ++ [node], st.2 ++ [[node]]) by
        rw [gccStep, if_neg hn, hbfs]]
      apply ih
      · simp only [List.nodup_append, List.nodup_cons, List.not_mem_nil,
          not_false_iff, List.nodup_nil, and_true, true_and]
        refine ⟨h1, ?_⟩
        intro a ha hb
        rw [List.mem_singleton] at hb
        exact hn (hb ▸ ha)
      · rw [h2, List.map_append]
        rfl

theorem length_le_one_of_nodup_forall_eq {α : Type} (l : List α)
    (hnd : l.Nodup) (h : ∀ a ∈ l, ∀ b ∈ l, a = b) : l.length ≤ 1 := by
  cases l with
  | nil => exact Nat.zero_le 1
  | cons x xs =>
    cases xs with
    | nil => exact Nat.le_refl 1
    | cons y ys =>
      exfalso
      have hxy : x = y := h x (List.mem_cons_self _ _)
        y (List.mem_cons_of_mem _ (List.mem_cons_self _ _))
      rw [List.nodup_cons] at hnd
      exact hnd.1 (by rw [hxy]; exact List.mem_cons_self y ys)

/-- Over singleton components drawn from a duplicate-free barcode list, every
barcode is claimed by at most one component, so the directional
reconciliation of one barcode changes nothing. -/
theorem processUmi_map_singleton (counts : Umi → Nat) (ds : List Umi)
    (hnd : ds.Nodup) (umi : Umi) :
    processUmiDirectional counts (ds.map (fun u => [u])) umi =
      ds.map (fun u => [u]) := by
  have hP : ((List.range (ds.map (fun u => [u])).length).filter
      (fun j => ((ds.map (fun u => [u])).getD j []).contains umi)).length
        ≤ 1 := by
    apply length_le_one_of_nodup_forall_eq
    · exact (List.nodup_range _).filter _
    · intro a ha b hb
      rw [List.mem_filter] at ha hb
      obtain ⟨haR, haC⟩ := ha
      obtain ⟨hbR, hbC⟩ := hb
      rw [List.mem_range, List.length_map] at haR hbR
      have hda : (ds.map (fun u => [u])).getD a [] = [ds[a]] := by
        rw [List.getD_eq_getElem?_getD, List.getElem?_map _ ds a,
          List.getElem?_eq_getElem haR]
        rfl
      have hdb : (ds.map (fun u => [u])).getD b [] = [ds[b]] := by
        rw [List.getD_eq_getElem?_getD, List.getElem?_map _ ds b,
          List.getElem?_eq_getElem hbR]
        rfl
      rw [hda] at haC
      rw [hdb] at hbC
      have ha2 : ds[a] = umi := by
        have : umi ∈ [ds[a]] := by simpa [List.contains] using haC
        rw [List.mem_singleton] at this
        exact this.symm
      have hb2 : ds[b] = umi := by
        have : umi ∈ [ds[b]] := by simpa [List.contains] using hbC
        rw [List.mem_singleton] at this
        exact this.symm
      exact (List.Nodup.getElem_inj_iff hnd).mp (by rw [ha2, hb2])
  simp only [processUmiDirectional]
  rw [if_pos hP]

/-- Directional post-processing leaves a duplicate-free family of singleton
components untouched. -/
theorem post_dir_singletons (umis ds : List Umi) (hnd : ds.Nodup)
    (adj_list : List (Umi × List Umi)) (counts : Umi → Nat) :
    _post_process_components_directional_ umis (ds.map (fun u => [u]))
      adj_list counts = ds.map (fun u => [u]) := by
  rw [_post_process_components_directional_]
  induction umis with
  | nil => rw [List.foldl_nil]
  | cons u us ih =>
    rw [List.foldl_cons, processUmi_map_singleton counts ds hnd u]
    exact ih

/-- The kmeans post-processing is the identity on component lists made of
singletons (the secondary pass is never invoked). -/
theorem post_km_singletons (fc : FindClusters) (umis : List Umi)
    (ds : List Umi) (adj_list : List (Umi × List Umi)) (counts : Umi → Nat) :
    _post_process_components_kmeans_ fc umis (ds.map (fun u => [u]))
      adj_list counts = ds.map (fun u => [u]) := by
  rw [_post_process_components_kmeans_]
  have h : ∀ (comps acc : List (List Umi)), (∀ c ∈ comps, c.length = 1) →
      comps.foldl (kmeansStep fc adj_list counts) acc = acc ++ comps := by
    intro comps
    induction comps with
    | nil => intro acc _; rw [List.foldl_nil, List.append_nil]
    | cons c cs ih =>
      intro acc h
      rw [List.foldl_cons, kmeansStep, if_pos (h c (List.mem_cons_self _ _)),
        ih _ (fun d hd => h d (List.mem_cons_of_mem _ hd))]
      simp
  rw [h _ [] ?_, List.nil_append]
  intro c hc
  obtain ⟨u, _, hu⟩ := List.mem_map.mp hc
  rw [← hu]
  rfl

/-- `reduce_clusters` emits nothing when every cluster has at most one
member. -/
theorem reduce_singletons (bundle : Bundle) (clusters : List (List Umi))
    (counts : Umi → Nat) (h : ∀ c ∈ clusters, c.length ≤ 1) :
    reduce_clusters bundle clusters counts = [] := by
  rw [reduce_clusters]
  have hgen : ∀ (cs : List (List Umi)) (acc : List (Read × Umi)),
      (∀ c ∈ cs, c.length ≤ 1) →
      cs.foldl (reduceStep bundle counts) acc = acc := by
    intro cs
    induction cs with
    | nil => intro acc _; rw [List.foldl_nil]
    | cons c cs' ih =>
      intro acc hcs
      rw [List.foldl_cons, reduceStep,
        if_neg (by have := hcs c (List.mem_cons_self _ _); omega)]
      exact ih acc (fun d hd => hcs d (List.mem_cons_of_mem _ hd))
  exact hgen clusters [] h

/-! ## Theorems settling the claims -/

/-- C1: the claim says a multiply-claimed barcode ends in the claiming
component whose representative has the HIGHEST READ COUNT.  The source's
`max(cluster_reps)` compares the representative STRINGS lexicographically
(contradicting its own comment "Reassign to cluster whose representative has
highest count").  On `bundleMulti` the claimants of "AC" have representatives
"AA" (count 3) and "CC" (count 2); the code hands "AC" to "CC"'s component
and reassigns its read to "CC", not "AA". -/
theorem C1_lex_max_overrides_count :
    bundleCounts bundleMulti "AA" = 3 ∧ bundleCounts bundleMulti "CC" = 2 ∧
    _post_process_components_directional_ (bundleUmis bundleMulti)
      (get_connected_components (bundleUmis bundleMulti)
        (_get_adj_list_directional_ (bundleUmis bundleMulti)
          (bundleCounts bundleMulti) 1) (bundleCounts bundleMulti))
      (_get_adj_list_directional_ (bundleUmis bundleMulti)
        (bundleCounts bundleMulti) 1) (bundleCounts bundleMulti)
      = [["AA"], ["CC", "AC"]] ∧
    callCR (initCR "directional" fcNoop) bundleMulti 1 = .ok [(5, "CC")] := by
  refine ⟨rfl, rfl, by decide, rfl⟩

/-- C2: the kmeans post-processing appends the ORIGINAL component once per
sub-group returned by the secondary refinement (`new_cluster` is never used),
so whenever the refinement splits a component the result lists that component
twice and its barcodes belong to two returned clusters.  `fcSplitAll` is an
admissible instance of the spec-modelled refinement that does split. -/
theorem C2_kmeans_refinement_duplicates_cluster :
    _post_process_components_kmeans_ fcSplitAll (bundleUmis bundlePair)
      [["AA", "AB"]]
      (_get_adj_list_kmeans_ (bundleUmis bundlePair) (bundleCounts bundlePair) 1)
      (bundleCounts bundlePair) = [["AA", "AB"], ["AA", "AB"]] ∧
    callCR (initCR "kmeans" fcSplitAll) bundlePair 1 =
      .ok [(2, "AA"), (2, "AA")] := by
  refine ⟨by decide, rfl⟩

/-- C7: on the spec's worked example {AAAA:10, AAAT:1, TTTT:8} with the
directional policy at threshold 1, the engine returns exactly one
reassignment, mapping AAAT's single read (id 10) to the representative AAAA;
no read of TTTT or AAAA is touched (the policy's `find_clusters` parameter is
irrelevant on the directional path). -/
theorem C7_directional_example_exact :
    ∀ fc : FindClusters,
      callCR (initCR "directional" fc) bundleSpecExample 1 = .ok [(10, "AAAA")] :=
  fun _ => rfl

/-- C9: on an empty bundle `max([len(x) for x in bundle.keys()])` raises
before any clustering, so no reassignment list (empty or otherwise) is
returned, whatever the functor and threshold. -/
theorem C9_empty_bundle_raises :
    ∀ (cr : ClusterAndReducer) (threshold : Nat),
      callCR cr [] threshold = .error .emptyBundle ∧
      ∀ res : List (Read × Umi), callCR cr [] threshold ≠ .ok res :=
  fun _ _ => ⟨rfl, fun _ h => Except.noConfusion h⟩

/-- C3 counterexample: with all counts equal, `get_best` returns the first
member of the cluster's iteration order, not a lexicographically determined
one: on {BB, AA, CC} (all counts 5) it returns "BB", which is neither the
lexicographic minimum "AA" nor the maximum "CC", and reordering the same
cluster changes the result. -/
theorem C3_tie_break_not_lexicographic_cex :
    get_best ["BB", "AA", "CC"] (fun _ => 5) = "BB" ∧
    get_best ["AA", "BB", "CC"] (fun _ => 5) = "AA" ∧
    pyLt "AA" "BB" = true ∧ pyLt "BB" "CC" = true := by
  refine ⟨by decide, by decide, by decide, by decide⟩

/-- C3 as amended: for every non-empty cluster and count map, `get_best`
returns a member whose count is greater than or equal to that of every other
member; equal-count ties are broken by the cluster's iteration order — the
result is the FIRST member (in iteration order) attaining the maximal count
(stable sort), not the lexicographically least barcode. -/
theorem C3_representative_first_maximal :
    ∀ (cluster : List Umi) (counts : Umi → Nat), cluster ≠ [] →
      get_best cluster counts ∈ cluster ∧
      (∀ x ∈ cluster, counts x ≤ counts (get_best cluster counts)) ∧
      cluster.find?
          (fun x => decide (counts (get_best cluster counts) ≤ counts x)) =
        some (get_best cluster counts) := by
  intro cluster counts hne
  rw [get_best_eq_sortHead]
  exact sortHead_spec counts cluster hne

/-- Witness for C3: the amended theorem applied to the concrete cluster
{CC, AA, AC} with the counts of `bundleMulti`. -/
theorem C3_representative_first_maximal_witness :
    (["CC", "AA", "AC"] ≠ ([] : List Umi)) ∧
    (get_best ["CC", "AA", "AC"] (bundleCounts bundleMulti) ∈
        (["CC", "AA", "AC"] : List Umi) ∧
      (∀ x ∈ (["CC", "AA", "AC"] : List Umi),
        bundleCounts bundleMulti x ≤
          bundleCounts bundleMulti
            (get_best ["CC", "AA", "AC"] (bundleCounts bundleMulti))) ∧
      (["CC", "AA", "AC"] : List Umi).find?
          (fun x => decide (bundleCounts bundleMulti
              (get_best ["CC", "AA", "AC"] (bundleCounts bundleMulti)) ≤
            bundleCounts bundleMulti x)) =
        some (get_best ["CC", "AA", "AC"] (bundleCounts bundleMulti))) :=
  ⟨by decide,
    C3_representative_first_maximal ["CC", "AA", "AC"]
      (bundleCounts bundleMulti) (by decide)⟩

/-- C5 counterexample: the claim says no barcode is ever adjacent to itself,
including at threshold 0; but on the bundle {A: 1 read} at threshold 0 the
directional builder lists "A" in its own adjacency list (hamming("A","A") = 0
and 1 ≥ 2·1−1). -/
theorem C5_self_adjacent_at_zero_cex :
    "A" ∈ adjLookup
      (_get_adj_list_directional_ (bundleUmis [("A", [0])])
        (bundleCounts [("A", [0])]) 0) "A" := by
  decide

/-- C5 as amended: for barcodes of the bundle, `B2` appears in `B`'s
directional adjacency list iff `hamming(B,B2) = threshold` and
`count(B) ≥ 2·count(B2) − 1` — the code applies this condition to every pair,
itself included.  Hence self-adjacency is excluded whenever `threshold ≥ 1`
(because `hamming(B,B) = 0`), but at threshold 0 a barcode is adjacent to
itself exactly when its count is at most 1. -/
theorem C5_directional_adjacency_characterization :
    ∀ (umis : List Umi) (counts : Umi → Nat) (threshold : Nat) (B B2 : Umi),
      B ∈ umis → B2 ∈ umis →
      (B2 ∈ adjLookup (_get_adj_list_directional_ umis counts threshold) B ↔
        hamming B B2 = threshold ∧
          (counts B2 : Int) * 2 - 1 ≤ (counts B : Int)) ∧
      (1 ≤ threshold →
        B ∉ adjLookup (_get_adj_list_directional_ umis counts threshold) B) ∧
      (threshold = 0 →
        (B ∈ adjLookup (_get_adj_list_directional_ umis counts threshold) B ↔
          counts B ≤ 1)) := by
  intro umis counts threshold B B2 hB hB2
  rw [adjLookup_directional umis counts threshold B hB]
  refine ⟨?_, ?_, ?_⟩
  · rw [List.mem_filter]
    simp [hB2]
  · intro ht hmem
    rw [List.mem_filter] at hmem
    have h2 := hmem.2
    simp only [Bool.and_eq_true, beq_iff_eq] at h2
    have h0 : hamming B B = threshold := h2.1
    rw [hamming_self] at h0
    omega
  · intro ht
    rw [List.mem_filter]
    have h0 : hamming B B = threshold := by rw [hamming_self, ht]
    simp only [hB, true_and, h0, beq_self_eq_true, Bool.true_and,
      decide_eq_true_eq]
    omega

/-- Witness for C5: the amended theorem applied to `bundlePair`'s barcodes
"AA" and "AB" at threshold 1. -/
theorem C5_directional_adjacency_characterization_witness :
    ("AA" ∈ bundleUmis bundlePair ∧ "AB" ∈ bundleUmis bundlePair) ∧
    (("AB" ∈ adjLookup
        (_get_adj_list_directional_ (bundleUmis bundlePair)
          (bundleCounts bundlePair) 1) "AA" ↔
      hamming "AA" "AB" = 1 ∧
        (bundleCounts bundlePair "AB" : Int) * 2 - 1 ≤
          (bundleCounts bundlePair "AA" : Int)) ∧
    (1 ≤ 1 → "AA" ∉ adjLookup
        (_get_adj_list_directional_ (bundleUmis bundlePair)
          (bundleCounts bundlePair) 1) "AA") ∧
    ((1 : Nat) = 0 → ("AA" ∈ adjLookup
        (_get_adj_list_directional_ (bundleUmis bundlePair)
          (bundleCounts bundlePair) 1) "AA" ↔
      bundleCounts bundlePair "AA" ≤ 1))) :=
  ⟨⟨by decide, by decide⟩,
    C5_directional_adjacency_characterization (bundleUmis bundlePair)
      (bundleCounts bundlePair) 1 "AA" "AB" (by decide) (by decide)⟩

/-- C6: invoking the engine on a bundle holding two different barcode lengths
fails with the length-mismatch assertion, whose report carries the observed
minimum and maximum lengths (proved to bound, and be attained by, the
barcode lengths), independent of the functor and threshold — the check runs
before counting, adjacency building or clustering.  A non-empty bundle of
uniform barcode length never produces this failure. -/
theorem C6_length_precondition :
    ∀ (cr : ClusterAndReducer) (bundle : Bundle) (threshold : Nat),
      ((∃ u ∈ bundleUmis bundle, ∃ v ∈ bundleUmis bundle,
          u.length ≠ v.length) →
        ∃ m M, callCR cr bundle threshold = .error (.lengthMismatch m M) ∧
          m ∈ (bundleUmis bundle).map String.length ∧
          M ∈ (bundleUmis bundle).map String.length ∧
          ∀ L ∈ (bundleUmis bundle).map String.length, m ≤ L ∧ L ≤ M) ∧
      ((∀ u ∈ bundleUmis bundle, ∀ v ∈ bundleUmis bundle,
          u.length = v.length) →
        ∀ m M, callCR cr bundle threshold ≠ .error (.lengthMismatch m M)) := by
  intro cr bundle threshold
  constructor
  · rintro ⟨u, hu, v, hv, huv⟩
    have hne : bundle ≠ [] := by
      intro h
      rw [h] at hu
      exact absurd hu (by simp [bundleUmis])
    obtain ⟨p, ps, hb⟩ := List.exists_cons_of_ne_nil hne
    obtain ⟨M, hM⟩ : ∃ M,
        maxNat? ((bundleUmis bundle).map String.length) = some M :=
      ⟨_, by rw [hb, bundleUmis, List.map_cons, List.map_cons, maxNat?]⟩
    obtain ⟨m, hm⟩ : ∃ m,
        minNat? ((bundleUmis bundle).map String.length) = some m :=
      ⟨_, by rw [hb, bundleUmis, List.map_cons, List.map_cons, minNat?]⟩
    obtain ⟨hMmem, hMle⟩ := maxNat?_spec _ M hM
    obtain ⟨hmmem, hmle⟩ := minNat?_spec _ m hm
    have hul : u.length ∈ (bundleUmis bundle).map String.length :=
      List.mem_map_of_mem String.length hu
    have hvl : v.length ∈ (bundleUmis bundle).map String.length :=
      List.mem_map_of_mem String.length hv
    have hMm : ¬ M = m := by
      intro hEq
      apply huv
      have h1 := hMle _ hul
      have h2 := hmle _ hul
      have h3 := hMle _ hvl
      have h4 := hmle _ hvl
      omega
    refine ⟨m, M, ?_, hmmem, hMmem, fun L hL => ⟨hmle L hL, hMle L hL⟩⟩
    simp only [callCR, hM, hm]
    rw [if_neg hMm]
  · intro huni m M h
    by_cases hne : bundle = []
    · rw [hne] at h
      rw [show callCR cr [] threshold = .error .emptyBundle from rfl] at h
      exact CallError.noConfusion (Except.error.inj h)
    · obtain ⟨L, hM, hm⟩ := lens_uniform bundle hne huni
      obtain ⟨ga, pp⟩ := cr
      simp only [callCR, hM, hm, if_pos] at h
      cases ga <;> cases pp <;> simp_all

/-- Witness for C6: the theorem's mismatch branch applied to `bundleMixed`
(barcode lengths 1 and 2). -/
theorem C6_length_precondition_witness :
    (∃ u ∈ bundleUmis bundleMixed, ∃ v ∈ bundleUmis bundleMixed,
      u.length ≠ v.length) ∧
    (∃ m M, callCR (initCR "directional" fcNoop) bundleMixed 1 =
        .error (.lengthMismatch m M) ∧
      m ∈ (bundleUmis bundleMixed).map String.length ∧
      M ∈ (bundleUmis bundleMixed).map String.length ∧
      ∀ L ∈ (bundleUmis bundleMixed).map String.length, m ≤ L ∧ L ≤ M) :=
  ⟨by decide,
    (C6_length_precondition (initCR "directional" fcNoop) bundleMixed 1).1
      (by decide)⟩

/-- C10 counterexample: the claim says EVERY invocation of a functor built
with an unknown `cluster_method` fails with a missing-attribute error; but on
a mixed-length bundle the length assertion fires first, so the failure is the
length mismatch, not the missing attribute. -/
theorem C10_invalid_method_precondition_cex :
    callCR (initCR "foo" fcNoop) bundleMixed 1 =
      .error (.lengthMismatch 1 2) ∧
    CallError.lengthMismatch 1 2 ≠ CallError.missingAttribute := by
  exact ⟨rfl, by decide⟩

/-- C10 as amended: constructing `ClusterAndReducer` with an unrecognised
`cluster_method` succeeds silently with neither policy attribute bound; no
invocation of the resulting object ever returns a reassignment list; and
every invocation that passes the empty-bundle and uniform-length checks fails
with the missing-attribute error (invocations that fail those checks fail
with the corresponding precondition error instead). -/
theorem C10_invalid_method_missing_attribute :
    ∀ (s : String) (fc : FindClusters), s ≠ "directional" → s ≠ "kmeans" →
      (initCR s fc).get_adj_list = none ∧
      (initCR s fc).post_process_components = none ∧
      (∀ (bundle : Bundle) (threshold : Nat) (res : List (Read × Umi)),
        callCR (initCR s fc) bundle threshold ≠ .ok res) ∧
      (∀ (bundle : Bundle) (threshold : Nat), bundle ≠ [] →
        (∀ u ∈ bundleUmis bundle, ∀ v ∈ bundleUmis bundle,
          u.length = v.length) →
        callCR (initCR s fc) bundle threshold = .error .missingAttribute) := by
  intro s fc hs1 hs2
  have hinit : initCR s fc =
      { get_adj_list := none, post_process_components := none } := by
    rw [initCR, if_neg hs1, if_neg hs2]
  refine ⟨by rw [hinit], by rw [hinit], ?_, ?_⟩
  · intro bundle threshold res h
    rw [hinit] at h
    rcases hM : maxNat? ((bundleUmis bundle).map String.length) with _ | M
    · simp only [callCR, hM] at h
      exact Except.noConfusion h
    · rcases hm : minNat? ((bundleUmis bundle).map String.length) with _ | m
      · simp only [callCR, hM, hm] at h
        exact Except.noConfusion h
      · simp only [callCR, hM, hm] at h
        by_cases hMm : M = m
        · rw [if_pos hMm] at h
          exact Except.noConfusion h
        · rw [if_neg hMm] at h
          exact Except.noConfusion h
  · intro bundle threshold hne huni
    obtain ⟨L, hM, hm⟩ := lens_uniform bundle hne huni
    rw [hinit]
    simp only [callCR, hM, hm, if_pos]

/-- Witness for C10: the amended theorem applied to the method string "foo". -/
theorem C10_invalid_method_missing_attribute_witness :
    ("foo" ≠ "directional" ∧ "foo" ≠ "kmeans") ∧
    ((initCR "foo" fcNoop).get_adj_list = none ∧
      (initCR "foo" fcNoop).post_process_components = none ∧
      (∀ (bundle : Bundle) (threshold : Nat) (res : List (Read × Umi)),
        callCR (initCR "foo" fcNoop) bundle threshold ≠ .ok res) ∧
      (∀ (bundle : Bundle) (threshold : Nat), bundle ≠ [] →
        (∀ u ∈ bundleUmis bundle, ∀ v ∈ bundleUmis bundle,
          u.length = v.length) →
        callCR (initCR "foo" fcNoop) bundle threshold =
          .error .missingAttribute)) :=
  ⟨⟨by decide, by decide⟩,
    C10_invalid_method_missing_attribute "foo" fcNoop (by decide) (by decide)⟩

/-- C4 counterexample: under the asymmetric directional rule the component
list is NOT pairwise disjoint — on `bundleMulti` at threshold 1 the barcode
"AC" is reachable from both seeds "AA" and "CC", so it appears in two
distinct components. -/
theorem C4_components_overlap_cex :
    get_connected_components (bundleUmis bundleMulti)
      (_get_adj_list_directional_ (bundleUmis bundleMulti)
        (bundleCounts bundleMulti) 1) (bundleCounts bundleMulti) =
      [["AA", "AC"], ["CC", "AC"]] ∧
    "AC" ∈ (["AA", "AC"] : List Umi) ∧ "AC" ∈ (["CC", "AC"] : List Umi) ∧
    (["AA", "AC"] : List Umi) ≠ ["CC", "AC"] := by
  refine ⟨by decide, by decide, by decide, by decide⟩

/-- C4 as amended: for every graph whose adjacency values are drawn from its
key set (true of both builders), the component list returned by
`get_connected_components` COVERS the barcode key set (every barcode belongs
to at least one component) and every component is closed under one-directional
adjacency (an edge B→B2 puts B2 into B's component whether or not B2→B
exists).  Pairwise disjointness, however, fails in general: under the
asymmetric directional rule a barcode can be claimed by several components
(see the counterexample), which is exactly what the directional
post-processing step is for. -/
theorem C4_components_cover_and_closed :
    ∀ (umis : List Umi) (graph : List (Umi × List Umi)) (counts : Umi → Nat),
      (∀ p ∈ graph, ∀ v ∈ p.2, v ∈ graph.map Prod.fst) →
      (∀ u ∈ graph.map Prod.fst,
        ∃ c ∈ get_connected_components umis graph counts, u ∈ c) ∧
      (∀ c ∈ get_connected_components umis graph counts,
        ∀ x ∈ c, adjLookup graph x ⊆ c) := by
  intro umis graph counts hval
  have hsub : sortByCountDesc counts (graph.map Prod.fst) ⊆
      graph.map Prod.fst := by
    intro a ha
    exact (mem_sortByCountDesc counts a _).mp ha
  obtain ⟨hcov, hcl⟩ := gcc_fold_spec graph hval
    (sortByCountDesc counts (graph.map Prod.fst)) ([], []) hsub
    (fun x hx => absurd hx (List.not_mem_nil x))
    (fun c hc => absurd hc (List.not_mem_nil c))
  constructor
  · intro u hu
    exact hcov u (Or.inl ((mem_sortByCountDesc counts u _).mpr hu))
  · exact hcl

/-- Witness for C4: the amended theorem applied to the directional graph of
`bundleMulti` at threshold 1. -/
theorem C4_components_cover_and_closed_witness :
    (∀ p ∈ _get_adj_list_directional_ (bundleUmis bundleMulti)
        (bundleCounts bundleMulti) 1, ∀ v ∈ p.2,
      v ∈ (_get_adj_list_directional_ (bundleUmis bundleMulti)
        (bundleCounts bundleMulti) 1).map Prod.fst) ∧
    ((∀ u ∈ (_get_adj_list_directional_ (bundleUmis bundleMulti)
        (bundleCounts bundleMulti) 1).map Prod.fst,
      ∃ c ∈ get_connected_components (bundleUmis bundleMulti)
        (_get_adj_list_directional_ (bundleUmis bundleMulti)
          (bundleCounts bundleMulti) 1) (bundleCounts bundleMulti), u ∈ c) ∧
    (∀ c ∈ get_connected_components (bundleUmis bundleMulti)
        (_get_adj_list_directional_ (bundleUmis bundleMulti)
          (bundleCounts bundleMulti) 1) (bundleCounts bundleMulti),
      ∀ x ∈ c,
        adjLookup (_get_adj_list_directional_ (bundleUmis bundleMulti)
          (bundleCounts bundleMulti) 1) x ⊆ c)) :=
  ⟨by decide,
    C4_components_cover_and_closed (bundleUmis bundleMulti)
      (_get_adj_list_directional_ (bundleUmis bundleMulti)
        (bundleCounts bundleMulti) 1) (bundleCounts bundleMulti) (by decide)⟩

/-- C8 counterexample: the claim asserts an empty reassignment list is
returned at threshold 0 "for every bundle, regardless of its content", but on
the empty bundle `__call__` raises from `max([])` before returning anything
(C9), so no list — empty or otherwise — is returned. -/
theorem C8_empty_bundle_cex :
    callCR (initCR "directional" fcNoop) [] 0 = .error .emptyBundle ∧
    callCR (initCR "directional" fcNoop) [] 0 ≠ .ok [] :=
  ⟨rfl, fun h => Except.noConfusion h⟩

/-- C8 as amended: for every bundle that passes the precondition checks
(non-empty, uniform barcode length), invoking the engine at threshold 0 under
either policy returns the empty reassignment list, and no two distinct
barcodes are adjacent under either builder (a barcode can still be adjacent
to itself, which does not merge anything). -/
theorem C8_threshold_zero_no_merge :
    ∀ (bundle : Bundle) (fc : FindClusters), bundle ≠ [] →
      (∀ u ∈ bundleUmis bundle, ∀ v ∈ bundleUmis bundle,
        u.length = v.length) →
      callCR (initCR "directional" fc) bundle 0 = .ok [] ∧
      callCR (initCR "kmeans" fc) bundle 0 = .ok [] ∧
      ∀ B ∈ bundleUmis bundle, ∀ B2 ∈ bundleUmis bundle, B ≠ B2 →
        B2 ∉ adjLookup (_get_adj_list_directional_ (bundleUmis bundle)
          (bundleCounts bundle) 0) B ∧
        B2 ∉ adjLookup (_get_adj_list_kmeans_ (bundleUmis bundle)
          (bundleCounts bundle) 0) B := by
  intro bundle fc hne huni
  obtain ⟨L, hM, hm⟩ := lens_uniform bundle hne huni
  have hselfD := adjLookup_directional_zero bundle huni
  have hselfK := adjLookup_kmeans_zero bundle huni
  have hsingle : ∀ (ds : List Umi), ∀ c ∈ ds.map (fun u => [u]),
      c.length ≤ 1 := by
    intro ds c hc
    obtain ⟨u, _, hu⟩ := List.mem_map.mp hc
    rw [← hu]
    exact Nat.le_refl 1
  refine ⟨?_, ?_, ?_⟩
  · rw [show initCR "directional" fc =
        { get_adj_list := some _get_adj_list_directional_
          post_process_components :=
            some _post_process_components_directional_ } by
      rw [initCR, if_pos rfl]]
    simp only [callCR, hM, hm, if_pos]
    obtain ⟨ds, hnd, hgcc⟩ := gcc_selfloop
      (_get_adj_list_directional_ (bundleUmis bundle) (bundleCounts bundle) 0)
      (bundleCounts bundle) (bundleUmis bundle) hselfD
    rw [hgcc, post_dir_singletons _ ds hnd _ _,
      reduce_singletons _ _ _ (hsingle ds)]
  · rw [show initCR "kmeans" fc =
        { get_adj_list := some _get_adj_list_kmeans_
          post_process_components :=
            some (_post_process_components_kmeans_ fc) } by
      rw [initCR]
      rw [if_neg (by decide), if_pos rfl]]
    simp only [callCR, hM, hm, if_pos]
    obtain ⟨ds, hnd, hgcc⟩ := gcc_selfloop
      (_get_adj_list_kmeans_ (bundleUmis bundle) (bundleCounts bundle) 0)
      (bundleCounts bundle) (bundleUmis bundle) hselfK
    rw [hgcc, post_km_singletons fc _ ds _ _,
      reduce_singletons _ _ _ (hsingle ds)]
  · intro B hB B2 hB2 hBB
    constructor
    · intro hmem
      have h2 := hselfD B hmem
      rw [List.mem_singleton] at h2
      exact hBB h2.symm
    · intro hmem
      have h2 := hselfK B hmem
      rw [List.mem_singleton] at h2
      exact hBB h2.symm

/-- Witness for C8: the amended theorem applied to `bundlePair` (non-empty,
uniform length 2) at threshold 0. -/
theorem C8_threshold_zero_no_merge_witness :
    (bundlePair ≠ [] ∧
      (∀ u ∈ bundleUmis bundlePair, ∀ v ∈ bundleUmis bundlePair,
        u.length = v.length)) ∧
    (callCR (initCR "directional" fcNoop) bundlePair 0 = .ok [] ∧
      callCR (initCR "kmeans" fcNoop) bundlePair 0 = .ok [] ∧
      ∀ B ∈ bundleUmis bundlePair, ∀ B2 ∈ bundleUmis bundlePair, B ≠ B2 →
        B2 ∉ adjLookup (_get_adj_list_directional_ (bundleUmis bundlePair)
          (bundleCounts bundlePair) 0) B ∧
        B2 ∉ adjLookup (_get_adj_list_kmeans_ (bundleUmis bundlePair)
          (bundleCounts bundlePair) 0) B) :=
  ⟨⟨by decide, by decide⟩,
    C8_threshold_zero_no_merge bundlePair fcNoop (by decide) (by decide)⟩

/-- Witness for C7: the example theorem instantiated at a concrete secondary
pass (which the directional path never consults). -/
theorem C7_directional_example_exact_witness :
    callCR (initCR "directional" fcNoop) bundleSpecExample 1 =
      .ok [(10, "AAAA")] :=
  C7_directional_example_exact fcNoop

/-- Witness for C9: the empty-bundle theorem instantiated at a concrete
functor and threshold. -/
theorem C9_empty_bundle_raises_witness :
    callCR (initCR "directional" fcNoop) [] 1 = .error .emptyBundle ∧
    ∀ res : List (Read × Umi),
      callCR (initCR "directional" fcNoop) [] 1 ≠ .ok res :=
  C9_empty_bundle_raises (initCR "directional" fcNoop) 1

end SeqErr
